import Mathlib

/-!
Verification of the photo_sync reconciliation engine (`src/main.rs`).

The Rust program builds a content-identity index of a source and a target
directory tree (`analyze_directory`), refuses to proceed when the source
index maps one `SizeAndName` key to two or more paths (`get_duplicates`,
checked in `main2`), computes a plan of `Copy` / `Move` / `RemoveDuplicate`
operations (`sync`), and applies the plan to the filesystem (`execute`).

The embedding below mirrors those functions over pure data:
a path is a list of components, a `BTreeMap<SizeAndName, Vec<PathBuf>>` is an
association list, filesystem state is a list of `(absolute path, size)` pairs,
and each fallible Rust function returns `Except` with the same error cases.
-/

set_option autoImplicit false

namespace PhotoSync

/-- A filesystem path, as its list of components. Operations compare paths
for equality only, so this representation is faithful to `PathBuf`. -/
abbrev Path := List String

/-- Identity key of a file: byte size and file name (`SizeAndName` in the
source). Two files are "the same" iff their keys are equal. -/
structure SizeAndName where
  size : Nat
  name : String
deriving DecidableEq

/-- Index of a tree: mapping from key to the relative paths carrying that key
(`AnalyzedDirectory` in the source, a `BTreeMap<SizeAndName, Vec<PathBuf>>`). -/
structure AnalyzedDirectory where
  map : List (SizeAndName × List Path)
deriving DecidableEq

/-- `BTreeMap::get`: the list of paths stored under `key`, if any. -/
def AnalyzedDirectory.get (d : AnalyzedDirectory) (key : SizeAndName) :
    Option (List Path) :=
  (d.map.find? (fun e => e.1 == key)).map (fun e => e.2)

/-- Payload of a `Copy` operation (fields `source`, `target` as in the Rust
struct `Copy`). -/
structure Copy where
  source : Path
  target : Path
deriving DecidableEq

/-- Payload of a `Move` operation (Rust struct `Move`). -/
structure Move where
  source : Path
  target : Path
deriving DecidableEq

/-- Payload of a `RemoveDuplicate` operation (Rust struct `RemoveDuplicate`). -/
structure RemoveDuplicate where
  duplicate : Path
  original : Path
deriving DecidableEq

/-- A planned filesystem operation (Rust enum `Operation`). -/
inductive Operation where
  | copy : Copy → Operation
  | move : Move → Operation
  | removeDuplicate : RemoveDuplicate → Operation
deriving DecidableEq

/-- Whether an operation is a `Move`. -/
def Operation.isMove : Operation → Bool
  | .move _ => true
  | _ => false

/-- Whether an operation is a `Copy`. -/
def Operation.isCopy : Operation → Bool
  | .copy _ => true
  | _ => false

/-- The `original` field of a `RemoveDuplicate`, if the operation is one. -/
def Operation.originalOf? : Operation → Option Path
  | .removeDuplicate r => some r.original
  | _ => none

/-- Whether the operation mentions `p` in any of its fields. -/
def Operation.referencesPath (op : Operation) (p : Path) : Bool :=
  match op with
  | .copy c => c.source == p || c.target == p
  | .move m => m.source == p || m.target == p
  | .removeDuplicate r => r.duplicate == p || r.original == p

/-- Whether the operation acts destructively on the existing target file at
`p`: moves it away (`Move.source`) or deletes it (`RemoveDuplicate.duplicate`).
Destination fields do not count; execution refuses them if they collide. -/
def Operation.movesOrRemovesPath (op : Operation) (p : Path) : Bool :=
  match op with
  | .copy _ => false
  | .move m => m.source == p
  | .removeDuplicate r => r.duplicate == p

/-- `get_duplicates` from the source: the path lists of every key carrying
more than one path. (The Rust function wraps this in an always-`Ok` result.) -/
def get_duplicates (analyzed_directory : AnalyzedDirectory) : List (List Path) :=
  analyzed_directory.map.filterMap
    (fun e => if 1 < e.2.length then some e.2 else none)

/-- Body of the per-key iteration of `sync` (`src/main.rs` lines 151-180):
given the target index, a source key and its path list, the operations pushed
for that key, or the error the iteration would return. -/
def syncKey (target_directory : AnalyzedDirectory) (key : SizeAndName)
    (value : List Path) : Except String (List Operation) :=
  match value.head? with
  | none => .error "no path for source"
  | some source_path =>
    match target_directory.get key with
    | some target_paths =>
      if target_paths.contains source_path then
        .ok ((target_paths.filter (fun target_path => target_path != source_path)).map
          (fun target_path => Operation.removeDuplicate ⟨target_path, source_path⟩))
      else
        match target_paths.head? with
        | none => .error "empty list of target paths"
        | some chosen_target_path =>
          .ok (Operation.move ⟨chosen_target_path, source_path⟩ ::
            (target_paths.filter (fun target_path => target_path != chosen_target_path)).map
              (fun target_path => Operation.removeDuplicate ⟨target_path, chosen_target_path⟩))
    | none => .ok [Operation.copy ⟨source_path, source_path⟩]

/-- The `sync` loop over a list of source entries, accumulating operations in
order and aborting at the first error, exactly as the Rust `for` loop does. -/
def syncEntries (target_directory : AnalyzedDirectory) :
    List (SizeAndName × List Path) → Except String (List Operation)
  | [] => .ok []
  | (key, value) :: rest =>
    match syncKey target_directory key value with
    | .error e => .error e
    | .ok ops =>
      match syncEntries target_directory rest with
      | .error e => .error e
      | .ok more => .ok (ops ++ more)

/-- `sync` from the source: compare the two indexes and produce the plan. -/
def sync (source_directory target_directory : AnalyzedDirectory) :
    Except String (List Operation) :=
  syncEntries target_directory source_directory.map

/-- The planning phase of `main2` (lines 306-319): validate the source index
with `get_duplicates` and only then call `sync`; a duplicate-bearing source
aborts with the error `main2` returns before any operation exists. -/
def main2_plan (analyzed_source analyzed_target : AnalyzedDirectory) :
    Except String (List Operation) :=
  if (get_duplicates analyzed_source).isEmpty then
    sync analyzed_source analyzed_target
  else
    .error "The source has duplicates"

/-! ### Executor model

The executor (`execute_copy`, `execute_move`, `execute_remove_duplicate`,
`execute`) acts on the real filesystem. We model the filesystem as a list of
`(absolute path, size)` pairs with pairwise distinct paths; `Path::join` is
list append, `Path::exists` is presence of the exact path, `std::fs::copy`
reads the source entry and inserts the destination, `rename` re-points an
entry, `remove_file` drops it. Directories (`create_parent`) have no
observable effect in this model and are omitted. -/

/-- Filesystem state: files by absolute path, with their sizes. -/
abbrev FS := List (Path × Nat)

/-- Size of the file at `p`, if one exists (`Path::exists` / metadata). -/
def lookupFile (fs : FS) (p : Path) : Option Nat :=
  (fs.find? (fun f => f.1 == p)).map (fun f => f.2)

/-- `Path::exists` for the model. -/
def existsFile (fs : FS) (p : Path) : Bool :=
  (lookupFile fs p).isSome

/-- Remove the file at path `p` (`std::fs::remove_file`, and the
disappearance of a renamed-away path). -/
def eraseFile (fs : FS) (p : Path) : FS :=
  fs.filter (fun f => f.1 != p)

/-- Errors of the executor, one per distinct error message in the source. -/
inductive ExecError where
  | wouldOverwrite : Path → ExecError
  | copyFailed : Path → Path → ExecError
  | moveFailed : Path → Path → ExecError
  | removeFailed : Path → ExecError
deriving DecidableEq

/-- `execute_copy` (lines 228-248): refuse to overwrite an existing
destination, then copy the bytes of `source_root/op.source` to
`target_root/op.target`. -/
def execute_copy (source target : Path) (operation : Copy) (fs : FS) :
    Except ExecError FS :=
  let full_source_path := source ++ operation.source
  let full_target_path := target ++ operation.target
  if existsFile fs full_target_path then
    .error (.wouldOverwrite full_target_path)
  else
    match lookupFile fs full_source_path with
    | some size => .ok ((full_target_path, size) :: fs)
    | none => .error (.copyFailed full_source_path full_target_path)

/-- `execute_move` (lines 250-268): both paths resolve against the target
root; refuse to overwrite, then rename. -/
def execute_move (target : Path) (operation : Move) (fs : FS) :
    Except ExecError FS :=
  let full_source_path := target ++ operation.source
  let full_target_path := target ++ operation.target
  if existsFile fs full_target_path then
    .error (.wouldOverwrite full_target_path)
  else
    match lookupFile fs full_source_path with
    | some size => .ok ((full_target_path, size) :: eraseFile fs full_source_path)
    | none => .error (.moveFailed full_source_path full_target_path)

/-- `execute_remove_duplicate` (lines 270-276): delete
`target_root/op.duplicate`. -/
def execute_remove_duplicate (target : Path) (operation : RemoveDuplicate)
    (fs : FS) : Except ExecError FS :=
  let full_target_path := target ++ operation.duplicate
  match lookupFile fs full_target_path with
  | some _ => .ok (eraseFile fs full_target_path)
  | none => .error (.removeFailed full_target_path)

/-- One step of the `execute` loop (lines 278-294). -/
def execute_operation (source target : Path) (op : Operation) (fs : FS) :
    Except ExecError FS :=
  match op with
  | .copy c => execute_copy source target c fs
  | .move m => execute_move target m fs
  | .removeDuplicate r => execute_remove_duplicate target r fs

/-- `execute`: apply the script in order, aborting at the first error. -/
def execute (source target : Path) : List Operation → FS → Except ExecError FS
  | [], fs => .ok fs
  | op :: rest, fs =>
    match execute_operation source target op fs with
    | .error e => .error e
    | .ok fs1 => execute source target rest fs1

/-! ### Indexer model

`analyze_sub_directory` walks the real filesystem with `read_dir`. We model
a directory listing as a list of entries: subdirectories (with their own
listings), regular files (with their byte size), and anything else — the
`is_dir` / `is_file` tests of the source become the constructor. I/O errors
(unreadable directory, unreadable metadata) are environment failures outside
the model; `file_name()` and `strip_prefix` always succeed here because the
walk builds the relative path from the entry names it descends through,
exactly as the recursion does on full paths. -/

/-- One entry of a directory listing, as classified by lines 54-79 of the
source: a subdirectory, a regular file, or anything else. -/
inductive FsEntry where
  | dir : String → List FsEntry → FsEntry
  | file : String → Nat → FsEntry
  | other : String → FsEntry

/-- Comparison of keys: size first, then name (the derived `Ord` of the Rust
`SizeAndName`, field order). -/
def cmpKey (a b : SizeAndName) : Ordering :=
  match compare a.size b.size with
  | .eq => compare a.name b.name
  | o => o

/-- `result.map.entry(key).or_insert(Vec::new()).push(path)`: append `p` to
the key's path list, inserting the key at its sorted position if absent. -/
def insertAppendList : List (SizeAndName × List Path) → SizeAndName → Path →
    List (SizeAndName × List Path)
  | [], key, p => [(key, [p])]
  | (k, ps) :: rest, key, p =>
    match cmpKey key k with
    | .lt => (key, [p]) :: (k, ps) :: rest
    | .eq => (k, ps ++ [p]) :: rest
    | .gt => (k, ps) :: insertAppendList rest key p

/-- `insertAppendList` on an `AnalyzedDirectory`. -/
def insertAppend (d : AnalyzedDirectory) (key : SizeAndName) (p : Path) :
    AnalyzedDirectory :=
  ⟨insertAppendList d.map key p⟩

/-- `analyze_sub_directory` (lines 40-82): walk a listing, recursing into
directories, indexing regular files under `(size, name)` at their path
relative to the root, and skipping every other kind of entry. -/
def analyze_sub_directory :
    List FsEntry → Path → AnalyzedDirectory → AnalyzedDirectory
  | [], _, result => result
  | FsEntry.dir name children :: rest, rel, result =>
    analyze_sub_directory rest rel
      (analyze_sub_directory children (rel ++ [name]) result)
  | FsEntry.file name size :: rest, rel, result =>
    analyze_sub_directory rest rel (insertAppend result ⟨size, name⟩ (rel ++ [name]))
  | FsEntry.other _ :: rest, rel, result => analyze_sub_directory rest rel result

/-- `analyze_directory` (lines 84-90): walk from the root with an empty
index and an empty relative path. -/
def analyze_directory (root : List FsEntry) : AnalyzedDirectory :=
  analyze_sub_directory root [] ⟨[]⟩

/-- A listing with every non-directory, non-file entry removed, at every
depth. Used to state that such entries are silently skipped. -/
def pruneOthers : List FsEntry → List FsEntry
  | [] => []
  | FsEntry.dir name children :: rest =>
    FsEntry.dir name (pruneOthers children) :: pruneOthers rest
  | FsEntry.file name size :: rest => FsEntry.file name size :: pruneOthers rest
  | FsEntry.other _ :: rest => pruneOthers rest

/-! ### Relating indexes to filesystem state (for claim C6) -/

/-- The file-name component of a relative path (`Path::file_name`). -/
def fileName (p : Path) : String := p.getLastD ""

/-- The files of `fs` lying under `root`, keyed by their path relative to
`root`: the tree that `analyze_directory root` would index. -/
def filesUnder (root : Path) (fs : FS) : List (Path × Nat) :=
  fs.filterMap
    (fun f => if root <+: f.1 then some (f.1.drop root.length, f.2) else none)

/-- `i` is an index of the tree `t`: every recorded path carries the file it
is recorded under, every file of the tree is recorded under its own key,
keys are not repeated, and no path is recorded twice under one key. This is
what `analyze_directory` produces, stated relationally so that any traversal
order is covered. -/
def isIndexOf (i : AnalyzedDirectory) (t : List (Path × Nat)) : Prop :=
  (∀ e ∈ i.map, ∀ p ∈ e.2, (p, e.1.size) ∈ t ∧ fileName p = e.1.name) ∧
  (∀ f ∈ t, ∃ e ∈ i.map, e.1 = ⟨f.2, fileName f.1⟩ ∧ f.1 ∈ e.2) ∧
  (i.map.map Prod.fst).Nodup ∧
  (∀ e ∈ i.map, e.2.Nodup)

instance (i : AnalyzedDirectory) (t : List (Path × Nat)) :
    Decidable (isIndexOf i t) := by
  unfold isIndexOf
  infer_instance

/-- The file of key `K` is present at relative path `p` under root `rt`. -/
def relMem (rt : Path) (K : SizeAndName) (p : Path) (fs : FS) : Prop :=
  (rt ++ p, K.size) ∈ fs ∧ fileName p = K.name

/-- The region of the filesystem under `rs` is the same in `fs` as in `fs0`. -/
def sourceIntact (rs : Path) (fs0 fs : FS) : Prop :=
  ∀ (q : Path) (sz : Nat), ((rs ++ q, sz) ∈ fs ↔ (rs ++ q, sz) ∈ fs0)

/-! ### Lemmas about the planner -/

lemma get_eq_some_mem {d : AnalyzedDirectory} {K : SizeAndName} {tps : List Path}
    (h : d.get K = some tps) : (K, tps) ∈ d.map := by
  unfold AnalyzedDirectory.get at h
  cases hf : d.map.find? (fun e => e.1 == K) with
  | none => rw [hf] at h; simp at h
  | some e =>
    rw [hf] at h
    simp only [Option.map_some'] at h
    have hk : e.1 = K := by
      have := List.find?_some hf
      simpa using this
    have h2 : e.2 = tps := by simpa using h
    have hmem := List.mem_of_find?_eq_some hf
    have he : e = (K, tps) := by
      obtain ⟨e1, e2⟩ := e
      simp only at hk h2
      rw [hk, h2]
    rwa [he] at hmem

lemma get_eq_none_iff {d : AnalyzedDirectory} {K : SizeAndName} :
    d.get K = none ↔ ∀ e ∈ d.map, e.1 ≠ K := by
  unfold AnalyzedDirectory.get
  simp [List.find?_eq_none]

lemma get_eq_some_of_mem_nodup {d : AnalyzedDirectory} {K : SizeAndName}
    {tps : List Path} (hmem : (K, tps) ∈ d.map)
    (hnd : (d.map.map Prod.fst).Nodup) : d.get K = some tps := by
  obtain ⟨m⟩ := d
  unfold AnalyzedDirectory.get
  simp only at hmem hnd ⊢
  induction m with
  | nil => simp at hmem
  | cons e rest ih =>
    simp only [List.map_cons, List.nodup_cons] at hnd
    rcases List.mem_cons.mp hmem with h | h
    · rw [← h]
      simp [List.find?]
    · have hne : e.1 ≠ K := by
        intro hq
        exact hnd.1 (hq ▸ (List.mem_map.mpr ⟨(K, tps), h, rfl⟩))
      simp only [List.find?]
      have : (e.1 == K) = false := by simpa using hne
      rw [this]
      exact ih h hnd.2

lemma syncEntries_append_eq (T : AnalyzedDirectory)
    (l₁ l₂ : List (SizeAndName × List Path)) :
    syncEntries T (l₁ ++ l₂) =
      match syncEntries T l₁ with
      | .error e => .error e
      | .ok o₁ =>
        match syncEntries T l₂ with
        | .error e => .error e
        | .ok o₂ => .ok (o₁ ++ o₂) := by
  induction l₁ with
  | nil =>
    simp only [List.nil_append, syncEntries]
    cases syncEntries T l₂ <;> simp
  | cons e rest ih =>
    obtain ⟨key, value⟩ := e
    simp only [List.cons_append, syncEntries, List.append_eq, ih]
    cases syncKey T key value with
    | error e => rfl
    | ok bops =>
      cases syncEntries T rest with
      | error e => rfl
      | ok o₁ =>
        cases syncEntries T l₂ with
        | error e => rfl
        | ok o₂ => simp [List.append_assoc]

lemma sync_block_decomp {S T : AnalyzedDirectory} {K : SizeAndName}
    {ps : List Path} {ops bops : List Operation}
    (hmem : (K, ps) ∈ S.map) (hsync : sync S T = .ok ops)
    (hkey : syncKey T K ps = .ok bops) :
    ∃ l₁ l₂, ops = l₁ ++ bops ++ l₂ := by
  obtain ⟨m₁, m₂, hsplit⟩ := List.append_of_mem hmem
  unfold sync at hsync
  rw [hsplit, syncEntries_append_eq] at hsync
  cases h₁ : syncEntries T m₁ with
  | error e => rw [h₁] at hsync; simp at hsync
  | ok o₁ =>
    rw [h₁] at hsync
    simp only [syncEntries, hkey] at hsync
    cases h₂ : syncEntries T m₂ with
    | error e => rw [h₂] at hsync; simp at hsync
    | ok o₂ =>
      rw [h₂] at hsync
      simp only [Except.ok.injEq] at hsync
      exact ⟨o₁, o₂, by rw [← hsync, List.append_assoc]⟩

lemma syncEntries_mem_block {T : AnalyzedDirectory}
    {l : List (SizeAndName × List Path)} {ops : List Operation} {op : Operation}
    (hsync : syncEntries T l = .ok ops) (hop : op ∈ ops) :
    ∃ e ∈ l, ∃ bops, syncKey T e.1 e.2 = .ok bops ∧ op ∈ bops := by
  induction l generalizing ops with
  | nil =>
    simp only [syncEntries, Except.ok.injEq] at hsync
    rw [← hsync] at hop
    simp at hop
  | cons e rest ih =>
    obtain ⟨key, value⟩ := e
    simp only [syncEntries] at hsync
    cases hk : syncKey T key value with
    | error msg => rw [hk] at hsync; simp at hsync
    | ok bops =>
      rw [hk] at hsync
      cases hr : syncEntries T rest with
      | error msg => rw [hr] at hsync; simp at hsync
      | ok more =>
        rw [hr] at hsync
        simp only [Except.ok.injEq] at hsync
        rw [← hsync] at hop
        rcases List.mem_append.mp hop with h | h
        · exact ⟨(key, value), List.mem_cons_self _ _, bops, hk, h⟩
        · obtain ⟨e', he', bops', hk', hop'⟩ := ih hr h
          exact ⟨e', List.mem_cons_of_mem _ he', bops', hk', hop'⟩

lemma syncKey_present {T : AnalyzedDirectory} {K : SizeAndName}
    {ps tps : List Path} {s0 t0 : Path}
    (hhead : ps.head? = some s0) (hT : T.get K = some tps)
    (ht0 : tps.head? = some t0) :
    syncKey T K ps =
      if s0 ∈ tps then
        .ok ((tps.filter (fun tp => tp != s0)).map
          (fun tp => Operation.removeDuplicate ⟨tp, s0⟩))
      else
        .ok (Operation.move ⟨t0, s0⟩ ::
          (tps.filter (fun tp => tp != t0)).map
            (fun tp => Operation.removeDuplicate ⟨tp, t0⟩)) := by
  simp only [syncKey, hhead, hT, ht0]
  by_cases hc : s0 ∈ tps
  · have hcb : tps.contains s0 = true := List.elem_iff.mpr hc
    simp [hcb, hc]
  · have hcb : tps.contains s0 = false := by
      rw [Bool.eq_false_iff]
      intro hcon
      exact hc (List.elem_iff.mp hcon)
    simp [hcb, hc]

/-! ### Claim theorems C1-C4 -/

/-- C1: if the source index has any `SizeAndName` key mapped to two or more
paths, the planning phase fails with the source-has-duplicates error and
produces no plan. -/
theorem C1 (source target : AnalyzedDirectory) (K : SizeAndName) (ps : List Path)
    (hmem : (K, ps) ∈ source.map) (hlen : 2 ≤ ps.length) :
    main2_plan source target = .error "The source has duplicates" := by
  have hdup : ps ∈ get_duplicates source := by
    unfold get_duplicates
    exact List.mem_filterMap.mpr
      ⟨(K, ps), hmem, by rw [if_pos (by omega : 1 < ps.length)]⟩
  have hne : (get_duplicates source).isEmpty = false := by
    cases hge : get_duplicates source with
    | nil => rw [hge] at hdup; simp at hdup
    | cons a l => rfl
  unfold main2_plan
  rw [hne]
  rfl

/-- C1 witness: a concrete source with one key mapped to two paths makes
planning fail with the duplicate error. -/
theorem C1_witness :
    main2_plan ⟨[(⟨1, "a.jpg"⟩, [["x", "a.jpg"], ["y", "a.jpg"]])]⟩ ⟨[]⟩
      = .error "The source has duplicates" :=
  C1 _ _ ⟨1, "a.jpg"⟩ [["x", "a.jpg"], ["y", "a.jpg"]] (by simp) (by simp)

/-- C2: a source key absent from the target index contributes exactly one
operation, a copy from its canonical source path to the same relative path,
and that operation occurs in the plan. -/
theorem C2 (S T : AnalyzedDirectory) (K : SizeAndName) (ps : List Path)
    (s0 : Path) (ops : List Operation)
    (hmem : (K, ps) ∈ S.map) (hhead : ps.head? = some s0)
    (habs : T.get K = none) (hsync : sync S T = .ok ops) :
    syncKey T K ps = .ok [Operation.copy ⟨s0, s0⟩] ∧
    ∃ l₁ l₂, ops = l₁ ++ [Operation.copy ⟨s0, s0⟩] ++ l₂ := by
  have hkey : syncKey T K ps = .ok [Operation.copy ⟨s0, s0⟩] := by
    simp [syncKey, hhead, habs]
  exact ⟨hkey, sync_block_decomp hmem hsync hkey⟩

/-- C2 witness: with source `photos/a.jpg` and an empty target the plan is
exactly one copy to the same relative path. -/
theorem C2_witness :
    syncKey ⟨[]⟩ ⟨1000, "a.jpg"⟩ [["photos", "a.jpg"]]
      = .ok [Operation.copy ⟨["photos", "a.jpg"], ["photos", "a.jpg"]⟩] ∧
    ∃ l₁ l₂,
      [Operation.copy ⟨["photos", "a.jpg"], ["photos", "a.jpg"]⟩]
        = l₁ ++ [Operation.copy ⟨["photos", "a.jpg"], ["photos", "a.jpg"]⟩] ++ l₂ :=
  C2 ⟨[(⟨1000, "a.jpg"⟩, [["photos", "a.jpg"]])]⟩ ⟨[]⟩ ⟨1000, "a.jpg"⟩
    [["photos", "a.jpg"]] ["photos", "a.jpg"]
    [Operation.copy ⟨["photos", "a.jpg"], ["photos", "a.jpg"]⟩]
    (by simp) rfl rfl rfl

/-- C3: for a key present in both indexes, if the canonical source path is
already among the target's paths no move is emitted and the chosen path is
the source path (every remove's `original` is it); otherwise exactly one
move is emitted, from the first target path to the source path, and the
first target path becomes the chosen one. -/
theorem C3 (T : AnalyzedDirectory) (K : SizeAndName) (ps tps : List Path)
    (s0 t0 : Path) (hhead : ps.head? = some s0) (hT : T.get K = some tps)
    (ht0 : tps.head? = some t0) :
    (s0 ∈ tps → ∃ ops, syncKey T K ps = .ok ops ∧
      ops.filter Operation.isMove = [] ∧
      ∀ op ∈ ops, op.originalOf? = some s0) ∧
    (s0 ∉ tps → ∃ ops, syncKey T K ps = .ok ops ∧
      ops.filter Operation.isMove = [Operation.move ⟨t0, s0⟩] ∧
      ∀ op ∈ ops, op.isMove = false → op.originalOf? = some t0) := by
  constructor
  · intro hc
    refine ⟨_, by rw [syncKey_present hhead hT ht0, if_pos hc], ?_, ?_⟩
    · rw [List.filter_eq_nil_iff]
      intro op hop
      obtain ⟨tp, _, htp⟩ := List.mem_map.mp hop
      rw [← htp]
      simp [Operation.isMove]
    · intro op hop
      obtain ⟨tp, _, htp⟩ := List.mem_map.mp hop
      rw [← htp]
      simp [Operation.originalOf?]
  · intro hc
    refine ⟨_, by rw [syncKey_present hhead hT ht0, if_neg hc], ?_, ?_⟩
    · simp only [List.filter_cons]
      have hm : Operation.isMove (Operation.move ⟨t0, s0⟩) = true := rfl
      rw [hm]
      simp only [if_pos]
      congr 1
      rw [List.filter_eq_nil_iff]
      intro op hop
      obtain ⟨tp, _, htp⟩ := List.mem_map.mp hop
      rw [← htp]
      simp [Operation.isMove]
    · intro op hop hnm
      rcases List.mem_cons.mp hop with h | h
      · rw [h] at hnm; simp [Operation.isMove] at hnm
      · obtain ⟨tp, _, htp⟩ := List.mem_map.mp h
        rw [← htp]
        simp [Operation.originalOf?]

/-- C3 witness: scenario B of the spec, where the target holds the file at a
different relative path, yields exactly one move from that path. -/
theorem C3_witness :
    (["a.jpg"] : Path) ∉ [["misc", "a.jpg"]] ∧
    ∃ ops,
      syncKey ⟨[(⟨1000, "a.jpg"⟩, [["misc", "a.jpg"]])]⟩ ⟨1000, "a.jpg"⟩ [["a.jpg"]]
        = .ok ops ∧
      ops.filter Operation.isMove
        = [Operation.move ⟨["misc", "a.jpg"], ["a.jpg"]⟩] ∧
      ∀ op ∈ ops, op.isMove = false →
        op.originalOf? = some ["misc", "a.jpg"] :=
  ⟨by simp,
    (C3 ⟨[(⟨1000, "a.jpg"⟩, [["misc", "a.jpg"]])]⟩ ⟨1000, "a.jpg"⟩
      [["a.jpg"]] [["misc", "a.jpg"]] ["a.jpg"] ["misc", "a.jpg"]
      rfl rfl rfl).2 (by simp)⟩

/-- C4: for a key present in both indexes, the block of operations emitted
for that key is the optional move followed by exactly one remove-duplicate
for every target path other than the chosen one, each carrying the chosen
path as its `original`; the whole block appears contiguously in the plan,
so the move precedes all of the key's removes. -/
theorem C4 (S T : AnalyzedDirectory) (K : SizeAndName) (ps tps : List Path)
    (s0 t0 : Path) (ops : List Operation)
    (hmem : (K, ps) ∈ S.map) (hsync : sync S T = .ok ops)
    (hhead : ps.head? = some s0) (hT : T.get K = some tps)
    (ht0 : tps.head? = some t0) :
    ∃ l₁ l₂,
      ops = l₁ ++
        ((if s0 ∈ tps then [] else [Operation.move ⟨t0, s0⟩]) ++
          (tps.filter (fun tp => tp != (if s0 ∈ tps then s0 else t0))).map
            (fun tp =>
              Operation.removeDuplicate ⟨tp, if s0 ∈ tps then s0 else t0⟩)) ++ l₂ := by
  have hkey := syncKey_present hhead hT ht0
  by_cases hc : s0 ∈ tps
  · rw [if_pos hc] at hkey
    simp only [if_pos hc]
    exact sync_block_decomp hmem hsync (by rw [hkey]; simp)
  · rw [if_neg hc] at hkey
    simp only [if_neg hc]
    exact sync_block_decomp hmem hsync (by rw [hkey]; simp)

/-- C4 witness: scenario C of the spec, target duplicates at `x/a.jpg` and
`y/a.jpg`, yields the move followed by the remove of the other path. -/
theorem C4_witness :
    ∃ l₁ l₂,
      ([Operation.move ⟨["x", "a.jpg"], ["a.jpg"]⟩,
        Operation.removeDuplicate ⟨["y", "a.jpg"], ["x", "a.jpg"]⟩]
          : List Operation)
        = l₁ ++
          ((if (["a.jpg"] : Path) ∈ [["x", "a.jpg"], ["y", "a.jpg"]] then []
            else [Operation.move ⟨["x", "a.jpg"], ["a.jpg"]⟩]) ++
            (([["x", "a.jpg"], ["y", "a.jpg"]] : List Path).filter
              (fun tp => tp !=
                (if (["a.jpg"] : Path) ∈ [["x", "a.jpg"], ["y", "a.jpg"]]
                  then ["a.jpg"] else ["x", "a.jpg"]))).map
              (fun tp => Operation.removeDuplicate
                ⟨tp, if (["a.jpg"] : Path) ∈ [["x", "a.jpg"], ["y", "a.jpg"]]
                  then ["a.jpg"] else ["x", "a.jpg"]⟩)) ++ l₂ :=
  C4 ⟨[(⟨1000, "a.jpg"⟩, [["a.jpg"]])]⟩
    ⟨[(⟨1000, "a.jpg"⟩, [["x", "a.jpg"], ["y", "a.jpg"]])]⟩
    ⟨1000, "a.jpg"⟩ [["a.jpg"]] [["x", "a.jpg"], ["y", "a.jpg"]]
    ["a.jpg"] ["x", "a.jpg"]
    [Operation.move ⟨["x", "a.jpg"], ["a.jpg"]⟩,
      Operation.removeDuplicate ⟨["y", "a.jpg"], ["x", "a.jpg"]⟩]
    (by simp) rfl rfl rfl rfl

lemma syncKey_shapes {T : AnalyzedDirectory} {K : SizeAndName} {ps : List Path}
    {bops : List Operation} (h : syncKey T K ps = .ok bops) :
    ∀ op ∈ bops,
      (∀ m : Move, op = .move m → ∃ tps, T.get K = some tps ∧ m.source ∈ tps) ∧
      (∀ r : RemoveDuplicate, op = .removeDuplicate r →
        ∃ tps, T.get K = some tps ∧ r.duplicate ∈ tps) := by
  intro op hop
  cases hh : ps.head? with
  | none => simp [syncKey, hh] at h
  | some s0 =>
    cases hg : T.get K with
    | none =>
      simp only [syncKey, hh, hg, Except.ok.injEq] at h
      rw [← h] at hop
      simp only [List.mem_singleton] at hop
      subst hop
      exact ⟨fun m hm => by simp at hm, fun r hr => by simp at hr⟩
    | some tps =>
      cases ht : tps.head? with
      | none =>
        have htn : tps = [] := List.head?_eq_none_iff.mp ht
        subst htn
        simp [syncKey, hh, hg] at h
      | some t0 =>
        rw [syncKey_present hh hg ht] at h
        have ht0 : t0 ∈ tps := by
          cases tps with
          | nil => simp at ht
          | cons a l =>
            simp only [List.head?_cons, Option.some.injEq] at ht
            rw [← ht]
            exact List.mem_cons_self _ _
        by_cases hc : s0 ∈ tps
        · rw [if_pos hc] at h
          simp only [Except.ok.injEq] at h
          rw [← h] at hop
          obtain ⟨tp, htp, hopeq⟩ := List.mem_map.mp hop
          rw [← hopeq]
          refine ⟨fun m hm => by simp at hm, fun r hr => ?_⟩
          simp only [Operation.removeDuplicate.injEq] at hr
          refine ⟨tps, rfl, ?_⟩
          rw [← hr]
          exact List.mem_of_mem_filter htp
        · rw [if_neg hc] at h
          simp only [Except.ok.injEq] at h
          rw [← h] at hop
          rcases List.mem_cons.mp hop with hm | hm
          · rw [hm]
            refine ⟨fun m hmv => ?_, fun r hr => by simp at hr⟩
            simp only [Operation.move.injEq] at hmv
            exact ⟨tps, rfl, by rw [← hmv]; exact ht0⟩
          · obtain ⟨tp, htp, hopeq⟩ := List.mem_map.mp hm
            rw [← hopeq]
            refine ⟨fun m hmv => by simp at hmv, fun r hr => ?_⟩
            simp only [Operation.removeDuplicate.injEq] at hr
            refine ⟨tps, rfl, ?_⟩
            rw [← hr]
            exact List.mem_of_mem_filter htp

/-! ### Claim C5 -/

/-- C5 counterexample: source holds `a.jpg` of size 1000, target holds a
different file also named `a.jpg` (size 2000) at the same relative path.
The key `(2000, a.jpg)` is present only in the target, yet the produced plan
contains an operation (the copy) referencing that key's path `a.jpg`, so the
claim that no operation references a target-only key's paths is false. -/
theorem C5_counterexample :
    sync ⟨[(⟨1000, "a.jpg"⟩, [["a.jpg"]])]⟩ ⟨[(⟨2000, "a.jpg"⟩, [["a.jpg"]])]⟩
      = .ok [Operation.copy ⟨["a.jpg"], ["a.jpg"]⟩] ∧
    AnalyzedDirectory.get ⟨[(⟨1000, "a.jpg"⟩, [["a.jpg"]])]⟩ ⟨2000, "a.jpg"⟩ = none ∧
    (⟨2000, "a.jpg"⟩, [["a.jpg"]])
      ∈ (AnalyzedDirectory.mk [(⟨2000, "a.jpg"⟩, [["a.jpg"]])]).map ∧
    Operation.referencesPath (Operation.copy ⟨["a.jpg"], ["a.jpg"]⟩) ["a.jpg"] = true :=
  ⟨rfl, rfl, by simp, rfl⟩

/-- C5 amended: for a key present only in the target index, provided the
target's path lists are pairwise disjoint (true of any index built from a
real tree, where each path carries exactly one key), no operation of the
plan *moves from* or *removes* any of that key's paths. Unique target
content is never relocated or deleted; only the destination fields of a
`Copy` or `Move` can coincide with such a path, as the counterexample
shows, and execution then refuses to overwrite. -/
theorem C5_amended (S T : AnalyzedDirectory) (ops : List Operation)
    (K : SizeAndName) (ps : List Path)
    (hsync : sync S T = .ok ops)
    (hTmem : (K, ps) ∈ T.map)
    (honly : S.get K = none)
    (hdisj : ∀ e ∈ T.map, e.1 ≠ K → ∀ p ∈ ps, p ∉ e.2) :
    ∀ op ∈ ops, ∀ p ∈ ps, op.movesOrRemovesPath p = false := by
  intro op hop p hp
  have hs : syncEntries T S.map = .ok ops := hsync
  obtain ⟨e, he, bops, hkey, hbop⟩ := syncEntries_mem_block hs hop
  have hKe : e.1 ≠ K := fun hq => (get_eq_none_iff.mp honly) e he hq
  obtain ⟨hmove, hremove⟩ := syncKey_shapes hkey op hbop
  cases op with
  | copy c => rfl
  | move m =>
    obtain ⟨tps, hget, hsrc⟩ := hmove m rfl
    have hTe : (e.1, tps) ∈ T.map := get_eq_some_mem hget
    have hne : m.source ≠ p :=
      fun hEq => hdisj (e.1, tps) hTe hKe p hp (hEq ▸ hsrc)
    simpa [Operation.movesOrRemovesPath] using hne
  | removeDuplicate r =>
    obtain ⟨tps, hget, hdup⟩ := hremove r rfl
    have hTe : (e.1, tps) ∈ T.map := get_eq_some_mem hget
    have hne : r.duplicate ≠ p :=
      fun hEq => hdisj (e.1, tps) hTe hKe p hp (hEq ▸ hdup)
    simpa [Operation.movesOrRemovesPath] using hne

/-- C5 amended witness: in a plan holding one move for the shared key, the
move does not move from or remove the target-only key's path. -/
theorem C5_amended_witness :
    (Operation.move ⟨["x", "a"], ["a"]⟩).movesOrRemovesPath ["b"] = false :=
  C5_amended ⟨[(⟨1, "a"⟩, [["a"]])]⟩
    ⟨[(⟨1, "a"⟩, [["x", "a"]]), (⟨2, "b"⟩, [["b"]])]⟩
    [Operation.move ⟨["x", "a"], ["a"]⟩] ⟨2, "b"⟩ [["b"]]
    rfl (by simp) rfl (by decide)
    (Operation.move ⟨["x", "a"], ["a"]⟩) (by simp) ["b"] (by simp)

/-! ### Lemmas about the executor, and claims C7 and C8 -/

lemma mem_eraseFile {fs : FS} {p q : Path} {sz : Nat} :
    (q, sz) ∈ eraseFile fs p ↔ (q, sz) ∈ fs ∧ q ≠ p := by
  simp [eraseFile, List.mem_filter]

lemma execute_operation_locality {rs rt : Path} {op : Operation} {fs fs' : FS}
    (h : execute_operation rs rt op fs = .ok fs') :
    ∀ (q : Path) (sz : Nat), ¬ rt <+: q → ((q, sz) ∈ fs' ↔ (q, sz) ∈ fs) := by
  intro q sz hq
  have hqne : ∀ b : Path, q ≠ rt ++ b := by
    intro b hb
    exact hq (hb ▸ List.prefix_append rt b)
  cases op with
  | copy c =>
    simp only [execute_operation, execute_copy] at h
    by_cases he : existsFile fs (rt ++ c.target)
    · rw [if_pos he] at h; simp at h
    · rw [if_neg he] at h
      cases hl : lookupFile fs (rs ++ c.source) with
      | none => rw [hl] at h; simp at h
      | some size =>
        rw [hl] at h
        simp only [Except.ok.injEq] at h
        rw [← h]
        simp only [List.mem_cons, Prod.mk.injEq]
        constructor
        · rintro (⟨hq1, _⟩ | hm)
          · exact absurd hq1 (hqne c.target)
          · exact hm
        · intro hm; exact Or.inr hm
  | move m =>
    simp only [execute_operation, execute_move] at h
    by_cases he : existsFile fs (rt ++ m.target)
    · rw [if_pos he] at h; simp at h
    · rw [if_neg he] at h
      cases hl : lookupFile fs (rt ++ m.source) with
      | none => rw [hl] at h; simp at h
      | some size =>
        rw [hl] at h
        simp only [Except.ok.injEq] at h
        rw [← h]
        simp only [List.mem_cons, Prod.mk.injEq, mem_eraseFile]
        constructor
        · rintro (⟨hq1, _⟩ | ⟨hm, _⟩)
          · exact absurd hq1 (hqne m.target)
          · exact hm
        · intro hm
          exact Or.inr ⟨hm, hqne m.source⟩
  | removeDuplicate r =>
    simp only [execute_operation, execute_remove_duplicate] at h
    cases hl : lookupFile fs (rt ++ r.duplicate) with
    | none => rw [hl] at h; simp at h
    | some size =>
      rw [hl] at h
      simp only [Except.ok.injEq] at h
      rw [← h, mem_eraseFile]
      exact ⟨fun hm => hm.1, fun hm => ⟨hm, hqne r.duplicate⟩⟩

lemma execute_locality {rs rt : Path} {ops : List Operation} {fs fs' : FS}
    (h : execute rs rt ops fs = .ok fs') :
    ∀ (q : Path) (sz : Nat), ¬ rt <+: q → ((q, sz) ∈ fs' ↔ (q, sz) ∈ fs) := by
  induction ops generalizing fs with
  | nil =>
    simp only [execute, Except.ok.injEq] at h
    rw [h]
    exact fun q sz _ => Iff.rfl
  | cons op rest ih =>
    simp only [execute] at h
    cases ho : execute_operation rs rt op fs with
    | error e => rw [ho] at h; simp at h
    | ok fs1 =>
      rw [ho] at h
      intro q sz hq
      exact (ih h q sz hq).trans (execute_operation_locality ho q sz hq)

/-- C7: the executor refuses to overwrite. If a copy's or a move's resolved
destination path already exists, execution of that operation fails with the
would-overwrite error and no new state is produced; conversely, a copy or
move only succeeds when the destination did not exist. -/
theorem C7 :
    (∀ (rs rt : Path) (c : Copy) (fs : FS),
      existsFile fs (rt ++ c.target) = true →
      execute_copy rs rt c fs = .error (.wouldOverwrite (rt ++ c.target))) ∧
    (∀ (rt : Path) (m : Move) (fs : FS),
      existsFile fs (rt ++ m.target) = true →
      execute_move rt m fs = .error (.wouldOverwrite (rt ++ m.target))) ∧
    (∀ (rs rt : Path) (c : Copy) (fs fs' : FS),
      execute_copy rs rt c fs = .ok fs' →
      existsFile fs (rt ++ c.target) = false) ∧
    (∀ (rt : Path) (m : Move) (fs fs' : FS),
      execute_move rt m fs = .ok fs' →
      existsFile fs (rt ++ m.target) = false) := by
  refine ⟨?_, ?_, ?_, ?_⟩
  · intro rs rt c fs he
    simp [execute_copy, he]
  · intro rt m fs he
    simp [execute_move, he]
  · intro rs rt c fs fs' h
    by_cases he : existsFile fs (rt ++ c.target)
    · simp [execute_copy, he] at h
    · simpa using he
  · intro rt m fs fs' h
    by_cases he : existsFile fs (rt ++ m.target)
    · simp [execute_move, he] at h
    · simpa using he

/-- C7 witness: copying onto an existing file fails with the
would-overwrite error at the resolved destination. -/
theorem C7_witness :
    execute_copy ["s"] ["t"] ⟨["a.jpg"], ["a.jpg"]⟩ [(["t", "a.jpg"], 5)]
      = .error (.wouldOverwrite ["t", "a.jpg"]) :=
  C7.1 ["s"] ["t"] ⟨["a.jpg"], ["a.jpg"]⟩ [(["t", "a.jpg"], 5)] rfl

/-- C8: execution only mutates the target tree. A successful run changes
file presence only at paths under the target root — every path not under
the target root, in particular every path of the source tree, holds exactly
the same file before and after. Moreover `Move` and `RemoveDuplicate`
resolve all their paths under the target root alone: a plan without copies
executes identically whatever the source root is, so only `Copy` ever
resolves a path under the source root, and only to read it. -/
theorem C8 :
    (∀ (rs rt : Path) (ops : List Operation) (fs fs' : FS),
      execute rs rt ops fs = .ok fs' →
      ∀ (q : Path) (sz : Nat), ¬ rt <+: q → ((q, sz) ∈ fs' ↔ (q, sz) ∈ fs)) ∧
    (∀ (rs rs' rt : Path) (ops : List Operation) (fs : FS),
      (∀ op ∈ ops, op.isCopy = false) →
      execute rs rt ops fs = execute rs' rt ops fs) := by
  constructor
  · intro rs rt ops fs fs' h
    exact execute_locality h
  · intro rs rs' rt ops fs hnc
    induction ops generalizing fs with
    | nil => rfl
    | cons op rest ih =>
      have hop : execute_operation rs rt op fs = execute_operation rs' rt op fs := by
        cases op with
        | copy c => exact absurd (hnc _ (List.mem_cons_self _ _)) (by simp [Operation.isCopy])
        | move m => rfl
        | removeDuplicate r => rfl
      simp only [execute, hop]
      cases execute_operation rs' rt op fs with
      | error e => rfl
      | ok fs1 => exact ih fs1 (fun o ho => hnc o (List.mem_cons_of_mem _ ho))

/-- C8 witness: after a successful copy from the source root, the source
file is untouched (its path is not under the target root). -/
theorem C8_witness :
    ((["s", "a.jpg"], 5) ∈ ([(["t", "a.jpg"], 5), (["s", "a.jpg"], 5)] : FS) ↔
      (["s", "a.jpg"], 5) ∈ ([(["s", "a.jpg"], 5)] : FS)) :=
  C8.1 ["s"] ["t"] [Operation.copy ⟨["a.jpg"], ["a.jpg"]⟩]
    [(["s", "a.jpg"], 5)] [(["t", "a.jpg"], 5), (["s", "a.jpg"], 5)]
    rfl ["s", "a.jpg"] 5 (by decide)

/-! ### Lemmas about the indexer, and claims C9 and C10 -/

lemma analyze_sub_directory_prune :
    ∀ (es : List FsEntry) (rel : Path) (acc : AnalyzedDirectory),
      analyze_sub_directory es rel acc
        = analyze_sub_directory (pruneOthers es) rel acc := by
  have key : ∀ (n : Nat) (es : List FsEntry), sizeOf es ≤ n →
      ∀ (rel : Path) (acc : AnalyzedDirectory),
        analyze_sub_directory es rel acc
          = analyze_sub_directory (pruneOthers es) rel acc := by
    intro n
    induction n with
    | zero =>
      intro es h
      cases es with
      | nil => intro rel acc; simp only [analyze_sub_directory, pruneOthers]
      | cons e rest => simp at h
    | succ n ih =>
      intro es h rel acc
      cases es with
      | nil => simp only [analyze_sub_directory, pruneOthers]
      | cons e rest =>
        cases e with
        | dir nm children =>
          have h1 : sizeOf children ≤ n := by simp at h; omega
          have h2 : sizeOf rest ≤ n := by simp at h; omega
          simp only [analyze_sub_directory, pruneOthers]
          rw [ih children h1, ih rest h2]
        | file nm sz =>
          have h2 : sizeOf rest ≤ n := by simp at h; omega
          simp only [analyze_sub_directory, pruneOthers]
          rw [ih rest h2]
        | other nm =>
          have h2 : sizeOf rest ≤ n := by simp at h; omega
          simp only [analyze_sub_directory, pruneOthers]
          rw [ih rest h2]
  intro es rel acc
  exact key (sizeOf es) es (le_refl _) rel acc

/-- C9: indexing skips every entry that is neither a directory nor a
regular file — removing all such entries, at any depth, leaves the produced
index unchanged, and the scan never fails on them — while directories
recurse and regular files are indexed under their size and name at their
relative path. -/
theorem C9 : ∀ (es : List FsEntry) (rel : Path) (acc : AnalyzedDirectory),
    analyze_sub_directory es rel acc
      = analyze_sub_directory (pruneOthers es) rel acc ∧
    (∀ nm, analyze_sub_directory (FsEntry.other nm :: es) rel acc
        = analyze_sub_directory es rel acc) ∧
    (∀ nm children, analyze_sub_directory (FsEntry.dir nm children :: es) rel acc
        = analyze_sub_directory es rel
            (analyze_sub_directory children (rel ++ [nm]) acc)) ∧
    (∀ nm size, analyze_sub_directory (FsEntry.file nm size :: es) rel acc
        = analyze_sub_directory es rel
            (insertAppend acc ⟨size, nm⟩ (rel ++ [nm]))) := by
  intro es rel acc
  exact ⟨analyze_sub_directory_prune es rel acc,
    fun nm => by simp only [analyze_sub_directory],
    fun nm children => by simp only [analyze_sub_directory],
    fun nm size => by simp only [analyze_sub_directory]⟩

lemma insertAppendList_nonempty :
    ∀ (m : List (SizeAndName × List Path)) (key : SizeAndName) (p : Path),
      (∀ e ∈ m, e.2 ≠ []) → ∀ e ∈ insertAppendList m key p, e.2 ≠ [] := by
  intro m key p
  induction m with
  | nil =>
    intro _ e he
    simp only [insertAppendList, List.mem_singleton] at he
    subst he
    simp
  | cons kps rest ih =>
    obtain ⟨k, ps⟩ := kps
    intro hm e he
    simp only [insertAppendList] at he
    cases hc : cmpKey key k with
    | lt =>
      rw [hc] at he
      rcases List.mem_cons.mp he with h | h
      · subst h; simp
      · exact hm e h
    | eq =>
      rw [hc] at he
      rcases List.mem_cons.mp he with h | h
      · subst h; simp
      · exact hm e (List.mem_cons_of_mem _ h)
    | gt =>
      rw [hc] at he
      rcases List.mem_cons.mp he with h | h
      · subst h; exact hm (k, ps) (List.mem_cons_self _ _)
      · exact ih (fun e' he' => hm e' (List.mem_cons_of_mem _ he')) e h

lemma analyze_sub_directory_nonempty :
    ∀ (n : Nat) (es : List FsEntry), sizeOf es ≤ n →
      ∀ (rel : Path) (acc : AnalyzedDirectory),
        (∀ e ∈ acc.map, e.2 ≠ []) →
        ∀ e ∈ (analyze_sub_directory es rel acc).map, e.2 ≠ [] := by
  intro n
  induction n with
  | zero =>
    intro es h
    cases es with
    | nil =>
      intro rel acc hacc
      simpa only [analyze_sub_directory] using hacc
    | cons e rest => simp at h
  | succ n ih =>
    intro es h rel acc hacc
    cases es with
    | nil => simpa only [analyze_sub_directory] using hacc
    | cons e rest =>
      cases e with
      | dir nm children =>
        have h1 : sizeOf children ≤ n := by simp at h; omega
        have h2 : sizeOf rest ≤ n := by simp at h; omega
        simp only [analyze_sub_directory]
        exact ih rest h2 rel _ (ih children h1 (rel ++ [nm]) acc hacc)
      | file nm sz =>
        have h2 : sizeOf rest ≤ n := by simp at h; omega
        simp only [analyze_sub_directory]
        exact ih rest h2 rel _ (insertAppendList_nonempty acc.map ⟨sz, nm⟩ _ hacc)
      | other nm =>
        have h2 : sizeOf rest ≤ n := by simp at h; omega
        simp only [analyze_sub_directory]
        exact ih rest h2 rel acc hacc

lemma syncEntries_isOk (T : AnalyzedDirectory)
    (hT : ∀ (K : SizeAndName) (tps : List Path), T.get K = some tps → tps ≠ []) :
    ∀ (entries : List (SizeAndName × List Path)),
      (∀ e ∈ entries, e.2 ≠ []) →
      ∃ ops, syncEntries T entries = .ok ops := by
  intro entries
  induction entries with
  | nil => intro _; exact ⟨[], rfl⟩
  | cons e rest ih =>
    intro hne
    obtain ⟨key, value⟩ := e
    have hvne : value ≠ [] := hne (key, value) (List.mem_cons_self _ _)
    obtain ⟨s0, vtail, hval⟩ : ∃ a l, value = a :: l := by
      cases value with
      | nil => exact absurd rfl hvne
      | cons a l => exact ⟨a, l, rfl⟩
    subst hval
    have hkOk : ∃ bops, syncKey T key (s0 :: vtail) = .ok bops := by
      cases hg : T.get key with
      | none => exact ⟨[Operation.copy ⟨s0, s0⟩], by simp [syncKey, hg]⟩
      | some tps =>
        have htne := hT key tps hg
        obtain ⟨t0, ttail, htps⟩ : ∃ a l, tps = a :: l := by
          cases tps with
          | nil => exact absurd rfl htne
          | cons a l => exact ⟨a, l, rfl⟩
        subst htps
        have hpres := @syncKey_present T key (s0 :: vtail) (t0 :: ttail) s0 t0
          rfl hg rfl
        by_cases hc : s0 ∈ t0 :: ttail
        · exact ⟨_, by rw [hpres, if_pos hc]⟩
        · exact ⟨_, by rw [hpres, if_neg hc]⟩
    obtain ⟨bops, hb⟩ := hkOk
    obtain ⟨more, hmore⟩ := ih (fun e' he' => hne e' (List.mem_cons_of_mem _ he'))
    exact ⟨bops ++ more, by simp [syncEntries, hb, hmore]⟩

/-- C10: every index `analyze_directory` produces maps each key to a
non-empty path list, so for any two produced indexes the planner's
"no path for source" and "empty list of target paths" branches are
unreachable and `sync` returns `Ok`. -/
theorem C10 : ∀ (s t : List FsEntry),
    (∀ e ∈ (analyze_directory s).map, e.2 ≠ []) ∧
    ∃ ops, sync (analyze_directory s) (analyze_directory t) = .ok ops := by
  intro s t
  have hs : ∀ e ∈ (analyze_directory s).map, e.2 ≠ [] :=
    analyze_sub_directory_nonempty (sizeOf s) s (le_refl _) [] ⟨[]⟩ (by simp)
  have ht : ∀ e ∈ (analyze_directory t).map, e.2 ≠ [] :=
    analyze_sub_directory_nonempty (sizeOf t) t (le_refl _) [] ⟨[]⟩ (by simp)
  refine ⟨hs, ?_⟩
  have hTget : ∀ (K : SizeAndName) (tps : List Path),
      (analyze_directory t).get K = some tps → tps ≠ [] :=
    fun K tps hg => ht (K, tps) (get_eq_some_mem hg)
  obtain ⟨ops, hops⟩ :=
    syncEntries_isOk (analyze_directory t) hTget (analyze_directory s).map hs
  exact ⟨ops, hops⟩

/-- C10 witness: two concrete trees produced by the indexer always plan
successfully. -/
theorem C10_witness :
    ∃ ops, sync (analyze_directory [FsEntry.file "a.jpg" 1000])
      (analyze_directory [FsEntry.other "dev0"]) = .ok ops :=
  (C10 [FsEntry.file "a.jpg" 1000] [FsEntry.other "dev0"]).2

/-! ### Filesystem lemmas for claim C6 -/

lemma mem_map_fst {fs : FS} {q : Path} :
    q ∈ fs.map Prod.fst ↔ ∃ sz, (q, sz) ∈ fs := by
  constructor
  · intro h
    obtain ⟨f, hf, hq⟩ := List.mem_map.mp h
    exact ⟨f.2, by rwa [show (q, f.2) = f from by rw [← hq]]⟩
  · rintro ⟨sz, h⟩
    exact List.mem_map.mpr ⟨(q, sz), h, rfl⟩

lemma lookupFile_some_mem {fs : FS} {p : Path} {sz : Nat}
    (h : lookupFile fs p = some sz) : (p, sz) ∈ fs := by
  unfold lookupFile at h
  cases hf : fs.find? (fun f => f.1 == p) with
  | none => rw [hf] at h; simp at h
  | some f =>
    rw [hf] at h
    have hp : f.1 = p := by simpa using List.find?_some hf
    have h2 : f.2 = sz := by simpa using h
    have hm := List.mem_of_find?_eq_some hf
    rwa [show f = (p, sz) from by obtain ⟨a, b⟩ := f; simp only at hp h2; rw [hp, h2]]
      at hm

lemma lookupFile_eq_some_of_mem {fs : FS} {p : Path} {sz : Nat}
    (hnd : (fs.map Prod.fst).Nodup) (h : (p, sz) ∈ fs) :
    lookupFile fs p = some sz := by
  unfold lookupFile
  induction fs with
  | nil => simp at h
  | cons f rest ih =>
    simp only [List.map_cons, List.nodup_cons] at hnd
    rcases List.mem_cons.mp h with h1 | h1
    · rw [← h1]
      simp [List.find?]
    · have hne : f.1 ≠ p := by
        intro hq
        exact hnd.1 (hq ▸ mem_map_fst.mpr ⟨sz, h1⟩)
      simp only [List.find?]
      have : (f.1 == p) = false := by simpa using hne
      rw [this]
      exact ih hnd.2 h1

lemma lookupFile_none_iff {fs : FS} {p : Path} :
    lookupFile fs p = none ↔ ∀ sz, (p, sz) ∉ fs := by
  unfold lookupFile
  simp only [Option.map_eq_none', List.find?_eq_none, beq_iff_eq]
  constructor
  · intro h sz hm
    exact h (p, sz) hm rfl
  · intro h f hf hq
    exact h f.2 (by rwa [show (p, f.2) = f from by rw [← hq]])

lemma existsFile_false_iff {fs : FS} {p : Path} :
    existsFile fs p = false ↔ ∀ sz, (p, sz) ∉ fs := by
  unfold existsFile
  cases h : lookupFile fs p with
  | none =>
    simp only [Option.isSome_none]
    exact iff_of_true trivial (lookupFile_none_iff.mp h)
  | some sz =>
    simp only [Option.isSome_some]
    refine iff_of_false (by simp) ?_
    intro hall
    exact hall sz (lookupFile_some_mem h)

lemma nodup_eraseFile {fs : FS} {p : Path}
    (hnd : (fs.map Prod.fst).Nodup) :
    ((eraseFile fs p).map Prod.fst).Nodup :=
  List.Nodup.sublist (List.Sublist.map Prod.fst (List.filter_sublist fs)) hnd

lemma same_path_size_eq {fs : FS} {p : Path} {a b : Nat}
    (hnd : (fs.map Prod.fst).Nodup) (ha : (p, a) ∈ fs) (hb : (p, b) ∈ fs) :
    a = b := by
  have h1 := lookupFile_eq_some_of_mem hnd ha
  have h2 := lookupFile_eq_some_of_mem hnd hb
  rw [h1] at h2
  simpa using h2

lemma append_roots_ne {rs rt : Path}
    (hrs : ¬ rs <+: rt) (hrt : ¬ rt <+: rs) :
    ∀ a b : Path, rs ++ a ≠ rt ++ b := by
  intro a b h
  rcases le_total rs.length rt.length with hl | hl
  · exact hrs (List.prefix_of_prefix_length_le
      (h ▸ List.prefix_append rs a) (List.prefix_append rt b) hl)
  · exact hrt (List.prefix_of_prefix_length_le
      (List.prefix_append rt b) (h ▸ List.prefix_append rs a) hl)

lemma append_left_eq_iff {r p d : Path} : r ++ p = r ++ d ↔ p = d :=
  ⟨List.append_cancel_left, fun h => by rw [h]⟩

lemma mem_filesUnder {root : Path} {fs : FS} {p : Path} {sz : Nat} :
    (p, sz) ∈ filesUnder root fs ↔ (root ++ p, sz) ∈ fs := by
  unfold filesUnder
  rw [List.mem_filterMap]
  constructor
  · rintro ⟨f, hf, hval⟩
    by_cases hpre : root <+: f.1
    · rw [if_pos hpre] at hval
      obtain ⟨t, ht⟩ := hpre
      simp only [Option.some.injEq, Prod.mk.injEq] at hval
      have hdrop : f.1.drop root.length = t := by
        rw [← ht, List.drop_left]
      rw [hdrop] at hval
      have : f = (root ++ p, sz) := by
        obtain ⟨f1, f2⟩ := f
        simp only at hval ht ⊢
        rw [← ht, hval.1, hval.2]
      rwa [this] at hf
    · rw [if_neg hpre] at hval
      simp at hval
  · intro h
    refine ⟨(root ++ p, sz), h, ?_⟩
    rw [if_pos (List.prefix_append root p)]
    simp [List.drop_left]

lemma key_ext {a b : SizeAndName} (hs : a.size = b.size) (hn : a.name = b.name) :
    a = b := by
  obtain ⟨a1, a2⟩ := a
  obtain ⟨b1, b2⟩ := b
  simp only at hs hn
  rw [hs, hn]

lemma nodup_keys_unique {m : List (SizeAndName × List Path)} {K : SizeAndName}
    {a b : List Path} (hnd : (m.map Prod.fst).Nodup)
    (ha : (K, a) ∈ m) (hb : (K, b) ∈ m) : a = b := by
  have h1 := @get_eq_some_of_mem_nodup ⟨m⟩ K a ha hnd
  have h2 := @get_eq_some_of_mem_nodup ⟨m⟩ K b hb hnd
  rw [h1] at h2
  simpa using h2

lemma exec_removes (rs rt : Path)
    (hne : ∀ a b : Path, rs ++ a ≠ rt ++ b) (K : SizeAndName) (keep orig : Path) :
    ∀ (dups : List Path) (fs fs' : FS),
      (fs.map Prod.fst).Nodup →
      dups.Nodup →
      keep ∉ dups →
      (∀ p, relMem rt K p fs ↔ p = keep ∨ p ∈ dups) →
      execute rs rt (dups.map (fun d => Operation.removeDuplicate ⟨d, orig⟩)) fs
        = .ok fs' →
      (fs'.map Prod.fst).Nodup ∧
      sourceIntact rs fs fs' ∧
      (∀ p, relMem rt K p fs' ↔ p = keep) ∧
      (∀ K', K' ≠ K → ∀ p, relMem rt K' p fs' ↔ relMem rt K' p fs) := by
  intro dups
  induction dups with
  | nil =>
    intro fs fs' hnd _ _ hrel hex
    simp only [List.map_nil, execute, Except.ok.injEq] at hex
    subst hex
    refine ⟨hnd, fun q sz => Iff.rfl, fun p => ?_, fun K' _ p => Iff.rfl⟩
    rw [hrel p]
    simp
  | cons d rest ih =>
    intro fs fs' hnd hdnd hkeep hrel hex
    have hd : relMem rt K d fs := (hrel d).mpr (Or.inr (List.mem_cons_self _ _))
    have hlk : lookupFile fs (rt ++ d) = some K.size :=
      lookupFile_eq_some_of_mem hnd hd.1
    simp only [List.map_cons, execute, execute_operation,
      execute_remove_duplicate, hlk] at hex
    have hkd : keep ≠ d := fun h => hkeep (h ▸ List.mem_cons_self d rest)
    have hdrest : d ∉ rest := (List.nodup_cons.mp hdnd).1
    have hndE : ((eraseFile fs (rt ++ d)).map Prod.fst).Nodup := nodup_eraseFile hnd
    have hrelE : ∀ p, relMem rt K p (eraseFile fs (rt ++ d)) ↔
        p = keep ∨ p ∈ rest := by
      intro p
      simp only [relMem, mem_eraseFile]
      constructor
      · rintro ⟨⟨hm, hne'⟩, hname⟩
        have hpd : p ≠ d := fun h => hne' (by rw [h])
        rcases (hrel p).mp ⟨hm, hname⟩ with h | h
        · exact Or.inl h
        · rcases List.mem_cons.mp h with h' | h'
          · exact absurd h' hpd
          · exact Or.inr h'
      · intro hcase
        have hpd : p ≠ d := by
          rcases hcase with h | h
          · exact h ▸ hkd
          · exact fun hq => hdrest (hq ▸ h)
        have hm := (hrel p).mpr (by
          rcases hcase with h | h
          · exact Or.inl h
          · exact Or.inr (List.mem_cons_of_mem _ h))
        exact ⟨⟨hm.1, fun hq => hpd (List.append_cancel_left hq)⟩, hm.2⟩
    have hrelK'E : ∀ K', K' ≠ K → ∀ p,
        relMem rt K' p (eraseFile fs (rt ++ d)) ↔ relMem rt K' p fs := by
      intro K' hKK p
      simp only [relMem, mem_eraseFile]
      constructor
      · rintro ⟨⟨hm, _⟩, hname⟩
        exact ⟨hm, hname⟩
      · rintro ⟨hm, hname⟩
        refine ⟨⟨hm, fun hq => ?_⟩, hname⟩
        have hpd : p = d := List.append_cancel_left hq
        subst hpd
        have hsz : K'.size = K.size := same_path_size_eq hnd hm hd.1
        have hnm : K'.name = K.name := hname ▸ hd.2
        exact hKK (key_ext hsz hnm)
    have hsrcE : ∀ (q : Path) (sz : Nat),
        (rs ++ q, sz) ∈ eraseFile fs (rt ++ d) ↔ (rs ++ q, sz) ∈ fs := by
      intro q sz
      rw [mem_eraseFile]
      exact ⟨fun h => h.1, fun h => ⟨h, hne q d⟩⟩
    obtain ⟨hnd', hsi', hrelK, hrelO⟩ :=
      ih (eraseFile fs (rt ++ d)) fs' hndE (List.nodup_cons.mp hdnd).2
        (fun h => hkeep (List.mem_cons_of_mem _ h)) hrelE hex
    exact ⟨hnd', fun q sz => (hsi' q sz).trans (hsrcE q sz), hrelK,
      fun K' hKK p => (hrelO K' hKK p).trans (hrelK'E K' hKK p)⟩


lemma exec_block (rs rt : Path) (iT : AnalyzedDirectory)
    (hne : ∀ a b : Path, rs ++ a ≠ rt ++ b)
    (K : SizeAndName) (s0 : Path) (block : List Operation) (fs fs1 : FS)
    (hnd : (fs.map Prod.fst).Nodup)
    (hname : fileName s0 = K.name)
    (hsrc : (rs ++ s0, K.size) ∈ fs)
    (htgt : ∀ p, relMem rt K p fs ↔ p ∈ ((iT.get K).getD []))
    (htpsN : ∀ (K' : SizeAndName) (tps : List Path),
      iT.get K' = some tps → tps.Nodup)
    (hkey : syncKey iT K [s0] = .ok block)
    (hex : execute rs rt block fs = .ok fs1) :
    (fs1.map Prod.fst).Nodup ∧
    sourceIntact rs fs fs1 ∧
    (∀ p, relMem rt K p fs1 ↔ p = s0) ∧
    (∀ K', K' ≠ K → ∀ p, relMem rt K' p fs1 ↔ relMem rt K' p fs) := by
  cases hg : iT.get K with
  | none =>
    have hblock : block = [Operation.copy ⟨s0, s0⟩] := by
      simp only [syncKey, List.head?_cons, hg, Except.ok.injEq] at hkey
      exact hkey.symm
    subst hblock
    have htgt0 : ∀ p, ¬ relMem rt K p fs := by
      intro p hp
      have := (htgt p).mp hp
      rw [hg] at this
      simp at this
    simp only [execute, execute_operation, execute_copy] at hex
    cases hef : existsFile fs (rt ++ s0) with
    | true => rw [hef] at hex; simp at hex
    | false =>
      have hlk : lookupFile fs (rs ++ s0) = some K.size :=
        lookupFile_eq_some_of_mem hnd hsrc
      rw [hef] at hex
      simp only [Bool.false_eq_true, if_false, hlk] at hex
      simp only [Except.ok.injEq] at hex
      have hnew : ∀ sz, (rt ++ s0, sz) ∉ fs := existsFile_false_iff.mp hef
      have hfs1 : fs1 = (rt ++ s0, K.size) :: fs := by
        cases hex
        rfl
      subst hfs1
      refine ⟨?_, ?_, ?_, ?_⟩
      · rw [List.map_cons]
        refine List.nodup_cons.mpr ⟨?_, hnd⟩
        intro hm
        obtain ⟨sz, hsz⟩ := mem_map_fst.mp hm
        exact hnew sz hsz
      · intro q sz
        simp only [List.mem_cons, Prod.mk.injEq]
        constructor
        · rintro (⟨h1, _⟩ | h2)
          · exact absurd h1 (hne q s0)
          · exact h2
        · exact Or.inr
      · intro p
        simp only [relMem, List.mem_cons, Prod.mk.injEq]
        constructor
        · rintro ⟨⟨h1, _⟩ | h2, hnm⟩
          · exact List.append_cancel_left h1
          · exact absurd ⟨h2, hnm⟩ (htgt0 p)
        · intro hp
          subst hp
          exact ⟨Or.inl (by simp), hname⟩
      · intro K' hKK p
        simp only [relMem, List.mem_cons, Prod.mk.injEq]
        constructor
        · rintro ⟨⟨h1, h2⟩ | h2, hnm⟩
          · exfalso
            have hp : p = s0 := List.append_cancel_left h1
            subst hp
            exact hKK (key_ext h2 (hnm ▸ hname))
          · exact ⟨h2, hnm⟩
        · rintro ⟨hm, hnm⟩
          exact ⟨Or.inr hm, hnm⟩
  | some tps =>
    have htN : tps.Nodup := htpsN K tps hg
    have htgtT : ∀ p, relMem rt K p fs ↔ p ∈ tps := by
      intro p
      rw [htgt p, hg]
      rfl
    have htne : tps ≠ [] := by
      intro hnil
      subst hnil
      simp [syncKey, hg] at hkey
    obtain ⟨t0, ttail, rfl⟩ : ∃ a l, tps = a :: l := by
      cases tps with
      | nil => exact absurd rfl htne
      | cons a l => exact ⟨a, l, rfl⟩
    have hpres := @syncKey_present iT K [s0] (t0 :: ttail) s0 t0 rfl hg rfl
    by_cases hc : s0 ∈ t0 :: ttail
    · rw [hpres, if_pos hc] at hkey
      simp only [Except.ok.injEq] at hkey
      have hdnd : ((t0 :: ttail).filter (fun tp => tp != s0)).Nodup :=
        htN.filter _
      have hkeepd : s0 ∉ (t0 :: ttail).filter (fun tp => tp != s0) := by
        intro hm
        have := (List.mem_filter.mp hm).2
        simp at this
      have hrel : ∀ p, relMem rt K p fs ↔
          p = s0 ∨ p ∈ (t0 :: ttail).filter (fun tp => tp != s0) := by
        intro p
        rw [htgtT p]
        constructor
        · intro hp
          by_cases hps : p = s0
          · exact Or.inl hps
          · exact Or.inr (List.mem_filter.mpr ⟨hp, by simpa using hps⟩)
        · rintro (hp | hp)
          · exact hp ▸ hc
          · exact (List.mem_filter.mp hp).1
      rw [← hkey] at hex
      exact exec_removes rs rt hne K s0 s0 _ fs fs1 hnd hdnd hkeepd hrel hex
    · rw [hpres, if_neg hc] at hkey
      simp only [Except.ok.injEq] at hkey
      rw [← hkey] at hex
      simp only [execute, execute_operation, execute_move] at hex
      cases hef : existsFile fs (rt ++ s0) with
      | true => rw [hef] at hex; simp at hex
      | false =>
        have ht0rel : relMem rt K t0 fs :=
          (htgtT t0).mpr (List.mem_cons_self _ _)
        have hlk : lookupFile fs (rt ++ t0) = some K.size :=
          lookupFile_eq_some_of_mem hnd ht0rel.1
        rw [hef] at hex
        simp only [Bool.false_eq_true, if_false, hlk] at hex
        have hnew : ∀ sz, (rt ++ s0, sz) ∉ fs := existsFile_false_iff.mp hef
        have hndm : ((((rt ++ s0, K.size) :: eraseFile fs (rt ++ t0)) : FS).map
            Prod.fst).Nodup := by
          rw [List.map_cons]
          refine List.nodup_cons.mpr ⟨?_, nodup_eraseFile hnd⟩
          intro hm
          obtain ⟨sz, hsz⟩ := mem_map_fst.mp hm
          exact hnew sz (mem_eraseFile.mp hsz).1
        have hrelm : ∀ p, relMem rt K p
            ((rt ++ s0, K.size) :: eraseFile fs (rt ++ t0)) ↔
            p = s0 ∨ p ∈ (t0 :: ttail).filter (fun tp => tp != t0) := by
          intro p
          simp only [relMem, List.mem_cons, Prod.mk.injEq, mem_eraseFile]
          constructor
          · rintro ⟨⟨h1, _⟩ | ⟨h2, h3⟩, hnm⟩
            · exact Or.inl (List.append_cancel_left h1)
            · refine Or.inr (List.mem_filter.mpr ⟨(htgtT p).mp ⟨h2, hnm⟩, ?_⟩)
              have : p ≠ t0 := fun hq => h3 (by rw [hq])
              simpa using this
          · rintro (hp | hp)
            · subst hp
              exact ⟨Or.inl (by simp), hname⟩
            · obtain ⟨hmem, hbne⟩ := List.mem_filter.mp hp
              have hpt : p ≠ t0 := by simpa using hbne
              have hrm := (htgtT p).mpr hmem
              exact ⟨Or.inr ⟨hrm.1, fun hq =>
                hpt (List.append_cancel_left hq)⟩, hrm.2⟩
        have hrelK'm : ∀ K', K' ≠ K → ∀ p, relMem rt K' p
            ((rt ++ s0, K.size) :: eraseFile fs (rt ++ t0)) ↔
            relMem rt K' p fs := by
          intro K' hKK p
          simp only [relMem, List.mem_cons, Prod.mk.injEq, mem_eraseFile]
          constructor
          · rintro ⟨⟨h1, h2⟩ | ⟨h2, _⟩, hnm⟩
            · exfalso
              have hp : p = s0 := List.append_cancel_left h1
              subst hp
              exact hKK (key_ext h2 (hnm ▸ hname))
            · exact ⟨h2, hnm⟩
          · rintro ⟨hm, hnm⟩
            refine ⟨Or.inr ⟨hm, fun hq => ?_⟩, hnm⟩
            have hp : p = t0 := List.append_cancel_left hq
            subst hp
            have hsz : K'.size = K.size := same_path_size_eq hnd hm ht0rel.1
            have hnm2 : K'.name = K.name := hnm ▸ ht0rel.2
            exact hKK (key_ext hsz hnm2)
        have hsrcm : ∀ (q : Path) (sz : Nat),
            (rs ++ q, sz) ∈ ((rt ++ s0, K.size) :: eraseFile fs (rt ++ t0) : FS) ↔
            (rs ++ q, sz) ∈ fs := by
          intro q sz
          simp only [List.mem_cons, Prod.mk.injEq, mem_eraseFile]
          constructor
          · rintro (⟨h1, _⟩ | ⟨h2, _⟩)
            · exact absurd h1 (hne q s0)
            · exact h2
          · intro hm
            exact Or.inr ⟨hm, hne q t0⟩
        have hdnd : ((t0 :: ttail).filter (fun tp => tp != t0)).Nodup :=
          htN.filter _
        have hkeepd : s0 ∉ (t0 :: ttail).filter (fun tp => tp != t0) := by
          intro hm
          exact hc (List.mem_of_mem_filter hm)
        obtain ⟨hnd', hsi', hrelK, hrelO⟩ :=
          exec_removes rs rt hne K s0 t0 _
            ((rt ++ s0, K.size) :: eraseFile fs (rt ++ t0)) fs1
            hndm hdnd hkeepd hrelm hex
        refine ⟨hnd', fun q sz => (hsi' q sz).trans (hsrcm q sz), hrelK,
          fun K' hKK p => (hrelO K' hKK p).trans (hrelK'm K' hKK p)⟩

lemma execute_append (rs rt : Path) (a b : List Operation) :
    ∀ fs : FS, execute rs rt (a ++ b) fs =
      match execute rs rt a fs with
      | .error e => .error e
      | .ok fs1 => execute rs rt b fs1 := by
  induction a with
  | nil => intro fs; rfl
  | cons op rest ih =>
    intro fs
    simp only [List.cons_append, execute]
    cases execute_operation rs rt op fs with
    | error e => rfl
    | ok fs1 => exact ih fs1

lemma get_duplicates_nil_len {i : AnalyzedDirectory}
    (h : get_duplicates i = []) : ∀ e ∈ i.map, e.2.length ≤ 1 := by
  intro e he
  by_contra hlen
  push_neg at hlen
  have hm : e.2 ∈ get_duplicates i :=
    List.mem_filterMap.mpr ⟨e, he, by rw [if_pos hlen]⟩
  rw [h] at hm
  simp at hm

lemma syncEntries_ok_each {T : AnalyzedDirectory}
    {l : List (SizeAndName × List Path)} {ops : List Operation}
    (h : syncEntries T l = .ok ops) :
    ∀ e ∈ l, ∃ bops, syncKey T e.1 e.2 = .ok bops := by
  induction l generalizing ops with
  | nil => intro e he; simp at he
  | cons e0 rest ih =>
    obtain ⟨key, value⟩ := e0
    simp only [syncEntries] at h
    cases hk : syncKey T key value with
    | error msg => rw [hk] at h; simp at h
    | ok bops =>
      rw [hk] at h
      cases hr : syncEntries T rest with
      | error msg => rw [hr] at h; simp at h
      | ok more =>
        intro e he
        rcases List.mem_cons.mp he with h1 | h1
        · exact ⟨bops, by rw [h1]; exact hk⟩
        · exact ih hr e h1

lemma syncKey_ok_head {T : AnalyzedDirectory} {K : SizeAndName}
    {ps : List Path} {bops : List Operation}
    (h : syncKey T K ps = .ok bops) : ∃ s0, ps.head? = some s0 := by
  cases hh : ps.head? with
  | none => simp [syncKey, hh] at h
  | some s0 => exact ⟨s0, rfl⟩

lemma exec_sync_blocks (rs rt : Path) (iT : AnalyzedDirectory)
    (hne : ∀ a b : Path, rs ++ a ≠ rt ++ b)
    (htpsN : ∀ (K' : SizeAndName) (tps : List Path),
      iT.get K' = some tps → tps.Nodup) :
    ∀ (entries : List (SizeAndName × List Path)) (fs fs' : FS)
      (ops : List Operation),
      (fs.map Prod.fst).Nodup →
      (entries.map Prod.fst).Nodup →
      (∀ e ∈ entries, ∃ s0, e.2 = [s0] ∧ fileName s0 = e.1.name ∧
        (rs ++ s0, e.1.size) ∈ fs) →
      (∀ e ∈ entries, ∀ p, relMem rt e.1 p fs ↔ p ∈ ((iT.get e.1).getD [])) →
      syncEntries iT entries = .ok ops →
      execute rs rt ops fs = .ok fs' →
      (fs'.map Prod.fst).Nodup ∧
      sourceIntact rs fs fs' ∧
      (∀ e ∈ entries, ∀ s0, e.2 = [s0] → ∀ p,
        (relMem rt e.1 p fs' ↔ p = s0)) ∧
      (∀ K', (∀ e ∈ entries, e.1 ≠ K') → ∀ p,
        relMem rt K' p fs' ↔ relMem rt K' p fs) := by
  intro entries
  induction entries with
  | nil =>
    intro fs fs' ops hnd _ _ _ hse hex
    simp only [syncEntries, Except.ok.injEq] at hse
    rw [← hse] at hex
    simp only [execute, Except.ok.injEq] at hex
    rw [← hex]
    exact ⟨hnd, fun q sz => Iff.rfl,
      fun e he => absurd he (List.not_mem_nil e), fun K' _ p => Iff.rfl⟩
  | cons e0 rest ih =>
    intro fs fs' ops hnd hkN hsrc htgt hse hex
    obtain ⟨K, ps⟩ := e0
    obtain ⟨s0, hps, hname, hsmem⟩ := hsrc (K, ps) (List.mem_cons_self _ _)
    simp only at hps
    subst hps
    have hkN' : K ∉ rest.map Prod.fst ∧ (rest.map Prod.fst).Nodup := by
      simpa using hkN
    simp only [syncEntries] at hse
    cases hk : syncKey iT K [s0] with
    | error msg => rw [hk] at hse; simp at hse
    | ok block =>
      rw [hk] at hse
      cases hr : syncEntries iT rest with
      | error msg => rw [hr] at hse; simp at hse
      | ok more =>
        rw [hr] at hse
        simp only [Except.ok.injEq] at hse
        rw [← hse, execute_append] at hex
        cases hb : execute rs rt block fs with
        | error e => rw [hb] at hex; simp at hex
        | ok fs1 =>
          rw [hb] at hex
          obtain ⟨hnd1, hsi1, hrelK1, hrelO1⟩ :=
            exec_block rs rt iT hne K s0 block fs fs1 hnd hname hsmem
              (htgt (K, [s0]) (List.mem_cons_self _ _)) htpsN hk hb
          have hrestKne : ∀ e ∈ rest, e.1 ≠ K := by
            intro e he hq
            exact hkN'.1 (hq ▸ List.mem_map.mpr ⟨e, he, rfl⟩)
          have hsrc1 : ∀ e ∈ rest, ∃ s1, e.2 = [s1] ∧ fileName s1 = e.1.name ∧
              (rs ++ s1, e.1.size) ∈ fs1 := by
            intro e he
            obtain ⟨s1, h1, h2, h3⟩ := hsrc e (List.mem_cons_of_mem _ he)
            exact ⟨s1, h1, h2, (hsi1 s1 e.1.size).mpr h3⟩
          have htgt1 : ∀ e ∈ rest, ∀ p,
              relMem rt e.1 p fs1 ↔ p ∈ ((iT.get e.1).getD []) := by
            intro e he p
            rw [hrelO1 e.1 (hrestKne e he) p]
            exact htgt e (List.mem_cons_of_mem _ he) p
          obtain ⟨hnd', hsi', hrelK', hrelO'⟩ :=
            ih fs1 fs' more hnd1 hkN'.2 hsrc1 htgt1 hr hex
          refine ⟨hnd', fun q sz => (hsi' q sz).trans (hsi1 q sz), ?_, ?_⟩
          · intro e he s1 hs1 p
            rcases List.mem_cons.mp he with h1 | h1
            · have hKe : e.1 = K := by rw [h1]
              have hs0 : s1 = s0 := by
                have : e.2 = [s0] := by rw [h1]
                rw [hs1] at this
                simpa using this
              subst hs0
              rw [hKe, hrelO' K hrestKne p]
              exact hrelK1 p
            · exact hrelK' e h1 s1 hs1 p
          · intro K' hK'ne p
            have h1 : K ≠ K' := hK'ne (K, [s0]) (List.mem_cons_self _ _)
            rw [hrelO' K' (fun e he => hK'ne e (List.mem_cons_of_mem _ he)) p]
            exact hrelO1 K' (Ne.symm h1) p

lemma syncEntries_ok_nil (iT' : AnalyzedDirectory) :
    ∀ entries : List (SizeAndName × List Path),
      (∀ e ∈ entries, ∃ s0 qs, e.2 = [s0] ∧ iT'.get e.1 = some qs ∧
        s0 ∈ qs ∧ (∀ q ∈ qs, q = s0)) →
      syncEntries iT' entries = .ok [] := by
  intro entries
  induction entries with
  | nil => intro _; rfl
  | cons e0 rest ih =>
    intro hyp
    obtain ⟨K, ps⟩ := e0
    obtain ⟨s0, qs, hps, hget, hs0, hall⟩ := hyp (K, ps) (List.mem_cons_self _ _)
    simp only at hps
    subst hps
    obtain ⟨q0, qtail, rfl⟩ : ∃ a l, qs = a :: l := by
      cases qs with
      | nil => simp at hs0
      | cons a l => exact ⟨a, l, rfl⟩
    have hpres := @syncKey_present iT' K [s0] (q0 :: qtail) s0 q0 rfl hget rfl
    have hfil : (q0 :: qtail).filter (fun tp => tp != s0) = [] := by
      rw [List.filter_eq_nil_iff]
      intro q hq
      have : q = s0 := hall q hq
      simp [this]
    have hkey : syncKey iT' K [s0] = .ok [] := by
      rw [hpres, if_pos hs0, hfil]
      rfl
    have hrest := ih (fun e he => hyp e (List.mem_cons_of_mem _ he))
    simp only [syncEntries, hkey, hrest]
    rfl

/-- C6: idempotence of the reconciliation. For a duplicate-free source
index and any target index — both faithful to the filesystem regions under
two independent roots — if the plan produced by `sync` executes
successfully, then re-planning the same source against any index of the
post-execution target region yields the empty plan. -/
theorem C6 (rs rt : Path) (fs fs' : FS) (iS iT iT' : AnalyzedDirectory)
    (ops : List Operation)
    (hrs : ¬ rs <+: rt) (hrt : ¬ rt <+: rs)
    (hnd : (fs.map Prod.fst).Nodup)
    (hiS : isIndexOf iS (filesUnder rs fs))
    (hiT : isIndexOf iT (filesUnder rt fs))
    (hdup : get_duplicates iS = [])
    (hsync : sync iS iT = .ok ops)
    (hexec : execute rs rt ops fs = .ok fs')
    (hiT' : isIndexOf iT' (filesUnder rt fs')) :
    sync iS iT' = .ok [] := by
  have hne := append_roots_ne hrs hrt
  obtain ⟨hiSs, hiSc, hiSk, hiSn⟩ := hiS
  obtain ⟨hiTs, hiTc, hiTk, hiTn⟩ := hiT
  obtain ⟨hiT's, hiT'c, hiT'k, hiT'n⟩ := hiT'
  have hsyncE : syncEntries iT iS.map = .ok ops := hsync
  -- each source entry holds exactly one path, with its file under the root
  have hsrc : ∀ e ∈ iS.map, ∃ s0, e.2 = [s0] ∧ fileName s0 = e.1.name ∧
      (rs ++ s0, e.1.size) ∈ fs := by
    intro e he
    obtain ⟨bops, hb⟩ := syncEntries_ok_each hsyncE e he
    obtain ⟨s0, hh⟩ := syncKey_ok_head hb
    have hlen := get_duplicates_nil_len hdup e he
    have he2 : e.2 = [s0] := by
      cases hval : e.2 with
      | nil => rw [hval] at hh; simp at hh
      | cons a l =>
        rw [hval] at hh
        simp only [List.head?_cons, Option.some.injEq] at hh
        cases l with
        | nil => rw [hh]
        | cons b l2 => rw [hval] at hlen; simp at hlen
    have hmem := (hiSs e he s0 (by rw [he2]; exact List.mem_cons_self _ _))
    exact ⟨s0, he2, hmem.2, mem_filesUnder.mp hmem.1⟩
  -- relate relMem to the target index's lists
  have htgt : ∀ e ∈ iS.map, ∀ p,
      relMem rt e.1 p fs ↔ p ∈ ((iT.get e.1).getD []) := by
    intro e he p
    cases hg : iT.get e.1 with
    | none =>
      simp only [Option.getD_none]
      constructor
      · rintro ⟨hm, hnm⟩
        obtain ⟨e', he', hk', hp'⟩ := hiTc (p, e.1.size) (mem_filesUnder.mpr hm)
        exfalso
        have hkey : e'.1 = e.1 := by
          rw [hk']
          exact key_ext (by rfl) (by simpa using hnm)
        exact (get_eq_none_iff.mp hg) e' he' hkey
      · intro hp
        simp at hp
    | some tps =>
      simp only [Option.getD_some]
      constructor
      · rintro ⟨hm, hnm⟩
        obtain ⟨e', he', hk', hp'⟩ := hiTc (p, e.1.size) (mem_filesUnder.mpr hm)
        have hkey : e'.1 = e.1 := by
          rw [hk']
          exact key_ext (by rfl) (by simpa using hnm)
        have he'mem : (e.1, e'.2) ∈ iT.map := by
          have : e' = (e.1, e'.2) := by
            obtain ⟨a, b⟩ := e'
            simp only at hkey ⊢
            rw [hkey]
          rwa [this] at he'
        have := nodup_keys_unique hiTk he'mem (get_eq_some_mem hg)
        rwa [← this]
      · intro hp
        have := hiTs (e.1, tps) (get_eq_some_mem hg) p hp
        exact ⟨mem_filesUnder.mp this.1, this.2⟩
  have htpsN : ∀ (K' : SizeAndName) (tps : List Path),
      iT.get K' = some tps → tps.Nodup :=
    fun K' tps hg => hiTn (K', tps) (get_eq_some_mem hg)
  obtain ⟨hnd', hsi', hrelK', hrelO'⟩ :=
    exec_sync_blocks rs rt iT hne htpsN iS.map fs fs' ops hnd hiSk hsrc htgt
      hsyncE hexec
  -- the post-execution target index maps every source key to exactly [s0]
  have hfinal : ∀ e ∈ iS.map, ∃ s0 qs, e.2 = [s0] ∧ iT'.get e.1 = some qs ∧
      s0 ∈ qs ∧ (∀ q ∈ qs, q = s0) := by
    intro e he
    obtain ⟨s0, he2, hname, _⟩ := hsrc e he
    have hrel : relMem rt e.1 s0 fs' := (hrelK' e he s0 he2 s0).mpr rfl
    obtain ⟨e', he', hk', hp'⟩ :=
      hiT'c (s0, e.1.size) (mem_filesUnder.mpr hrel.1)
    have hkey : e'.1 = e.1 := by
      rw [hk']
      exact key_ext (by rfl) (by simpa using hname)
    have he'mem : (e.1, e'.2) ∈ iT'.map := by
      have : e' = (e.1, e'.2) := by
        obtain ⟨a, b⟩ := e'
        simp only at hkey ⊢
        rw [hkey]
      rwa [this] at he'
    refine ⟨s0, e'.2, he2, @get_eq_some_of_mem_nodup iT' e.1 e'.2 he'mem hiT'k,
      hp', ?_⟩
    intro q hq
    have hsound := hiT's (e.1, e'.2) he'mem q hq
    have hqrel : relMem rt e.1 q fs' :=
      ⟨mem_filesUnder.mp hsound.1, hsound.2⟩
    exact (hrelK' e he s0 he2 q).mp hqrel
  exact syncEntries_ok_nil iT' iS.map hfinal

/-- C6 witness: a concrete run — source `a` copied into an empty target —
after which re-planning yields the empty plan. -/
theorem C6_witness :
    sync ⟨[(⟨1, "a"⟩, [["a"]])]⟩ ⟨[(⟨1, "a"⟩, [["a"]])]⟩ = .ok [] :=
  C6 ["s"] ["t"] [(["s", "a"], 1)] [(["t", "a"], 1), (["s", "a"], 1)]
    ⟨[(⟨1, "a"⟩, [["a"]])]⟩ ⟨[]⟩ ⟨[(⟨1, "a"⟩, [["a"]])]⟩
    [Operation.copy ⟨["a"], ["a"]⟩]
    (by decide) (by decide) (by decide) (by decide) (by decide)
    rfl rfl rfl (by decide)

end PhotoSync
